import Mathlib

/-!
Verification of the text-formatting core of the `to` library (package
`github.com/rwxrob/to`).  Go strings are modelled as lists of bytes
(`List Nat`); Go's `range` over a string and its `[]rune` conversion are
modelled by a faithful UTF-8 decoder (`runesB`) following
`unicode/utf8.DecodeRuneInString`, including its error behaviour
(invalid input decodes to U+FFFD consuming one byte).  Functions that
can panic in Go (index out of range) return `Option`, with `none`
standing for the panic.
-/

/-- Go `unicode.IsSpace` on a rune value: the Unicode White_Space
property, exactly the set tested by the Go standard library. -/
def isSpaceRune (r : Nat) : Bool :=
  r = 9 || r = 10 || r = 11 || r = 12 || r = 13 || r = 32 ||
  r = 0x85 || r = 0xA0 || r = 0x1680 ||
  (0x2000 ≤ r && r ≤ 0x200A) ||
  r = 0x2028 || r = 0x2029 || r = 0x202F || r = 0x205F || r = 0x3000

/-- A UTF-8 continuation byte (0x80..0xBF). -/
def contB (b : Nat) : Bool := 0x80 ≤ b && b ≤ 0xBF

/-- Valid second byte for a 3-byte sequence, per Go's acceptRanges
(0xE0 narrows to 0xA0..0xBF, 0xED narrows to 0x80..0x9F). -/
def acc3 (b0 b1 : Nat) : Bool :=
  (b0 == 0xE0 && (0xA0 ≤ b1 && b1 ≤ 0xBF)) ||
  (b0 == 0xED && (0x80 ≤ b1 && b1 ≤ 0x9F)) ||
  (b0 != 0xE0 && b0 != 0xED && contB b1)

/-- Valid second byte for a 4-byte sequence, per Go's acceptRanges
(0xF0 narrows to 0x90..0xBF, 0xF4 narrows to 0x80..0x8F). -/
def acc4 (b0 b1 : Nat) : Bool :=
  (b0 == 0xF0 && (0x90 ≤ b1 && b1 ≤ 0xBF)) ||
  (b0 == 0xF4 && (0x80 ≤ b1 && b1 ≤ 0x8F)) ||
  (b0 != 0xF0 && b0 != 0xF4 && contB b1)

/-- One step of Go `unicode/utf8.DecodeRuneInString` on a nonempty
string `b0 :: rest`: the decoded rune, the bytes consumed, and the
remaining bytes.  Go checks a too-short tail before byte validity, and
every invalid or short sequence decodes to U+FFFD consuming one byte. -/
def decode1 (b0 : Nat) (rest : List Nat) : Nat × List Nat × List Nat :=
  if b0 < 0x80 then (b0, [b0], rest)
  else if b0 < 0xC2 then (0xFFFD, [b0], rest)
  else if b0 ≤ 0xDF then
    match rest with
    | b1 :: rest1 =>
      if contB b1 then ((b0 - 0xC0) * 0x40 + (b1 - 0x80), [b0, b1], rest1)
      else (0xFFFD, [b0], rest)
    | [] => (0xFFFD, [b0], rest)
  else if b0 ≤ 0xEF then
    match rest with
    | b1 :: b2 :: rest2 =>
      if acc3 b0 b1 && contB b2 then
        ((b0 - 0xE0) * 0x1000 + (b1 - 0x80) * 0x40 + (b2 - 0x80),
          [b0, b1, b2], rest2)
      else (0xFFFD, [b0], rest)
    | _ => (0xFFFD, [b0], rest)
  else if b0 ≤ 0xF4 then
    match rest with
    | b1 :: b2 :: b3 :: rest3 =>
      if acc4 b0 b1 && contB b2 && contB b3 then
        ((b0 - 0xF0) * 0x40000 + (b1 - 0x80) * 0x1000 +
          (b2 - 0x80) * 0x40 + (b3 - 0x80), [b0, b1, b2, b3], rest3)
      else (0xFFFD, [b0], rest)
    | _ => (0xFFFD, [b0], rest)
  else (0xFFFD, [b0], rest)

/-- Go's `for _, r := range s` decoding loop: decode rune after rune.
Each step consumes at least one byte, so `s.length` steps of fuel make
the recursion structural and complete. -/
def runesGo : Nat → List Nat → List (Nat × List Nat)
  | 0, _ => []
  | _ + 1, [] => []
  | fuel + 1, b0 :: rest =>
    ((decode1 b0 rest).1, (decode1 b0 rest).2.1) ::
      runesGo fuel (decode1 b0 rest).2.2

/-- Decode a byte string into its sequence of runes, each paired with
the bytes it consumed: Go's `for _, r := range s` / `[]rune(s)`
semantics. -/
def runesB (s : List Nat) : List (Nat × List Nat) := runesGo s.length s

/-- `[]rune(s)`: the rune values of a byte string. -/
def toRunes (s : List Nat) : List Nat := (runesB s).map Prod.fst

/-- `dropCR` from `bufio.ScanLines`: strip one trailing carriage return. -/
def dropCR (l : List Nat) : List Nat :=
  if l.getLast? = some 13 then l.dropLast else l

/-- The scanning loop of `bufio.Scanner` with `bufio.ScanLines`, used by
`Lines`: split at each newline byte, strip one `\r` before each split and
at end of input, and emit no empty final token after a trailing
newline. -/
def linesGo (acc : List Nat) : List Nat → List (List Nat)
  | [] => if acc.isEmpty then [] else [dropCR acc]
  | b :: rest =>
    if b = 10 then dropCR acc :: linesGo [] rest
    else linesGo (acc ++ [b]) rest

/-- `Lines` (to.go): divide a string into lines on `\r?\n` boundaries,
terminators stripped. -/
def LinesF (s : List Nat) : List (List Nat) := linesGo [] s

/-- Go `strings.Join(elems, sep)`. -/
def strsJoin (elems : List (List Nat)) (sep : List Nat) : List Nat :=
  match elems with
  | [] => []
  | [a] => a
  | a :: rest => a ++ sep ++ strsJoin rest sep

/-- The regexp `^\s*$` used by `Dedented`: Go's `\s` character class is
exactly `[\t\n\f\r ]`, so a string matches iff every byte lies in that
(single-byte) set. -/
def isblankB (l : List Nat) : Bool :=
  l.all (fun b => b = 9 || b = 10 || b = 12 || b = 13 || b = 32)

/-- The loop body of `Indentation` (to_test.go latest revision): iterate
`for n, v = range in`, breaking at the first rune that is not
`unicode.IsSpace`; `n` is the byte offset of the rune of the current
iteration, so when the loop runs off the end the result is the offset of
the last rune, not the length. -/
def indGo (pos : Nat) : List (Nat × List Nat) → Nat
  | [] => 0
  | [(r, _)] => if isSpaceRune r then pos else pos
  | (r, bs) :: e :: es =>
    if isSpaceRune r then indGo (pos + bs.length) (e :: es) else pos

/-- `Indentation` (to_test.go latest revision): byte offset at which the
`range` loop stops; 0 for the empty string. -/
def Indentation (s : List Nat) : Nat := indGo 0 (runesB s)

/-- Skip loop of `Dedented`: `for len(lines[n]) == 0 || isblank { n++ }`.
Returns the index of the first non-blank line, or `none` when the loop
indexes past the end of the slice (a Go panic). -/
def skipIdx : List (List Nat) → Option Nat
  | [] => none
  | l :: rest =>
    if l.length = 0 || isblankB l then (skipIdx rest).map Nat.succ
    else some 0

/-- Mutation loop of `Dedented` (latest revision): for `n` from the given
index to the end, replace `lines[n]` by `lines[n][indent:]` when
`len(lines[n]) > indent`, else leave it unchanged.  The loop runs at
most `lines.length` times; `fuel` is that bound, so the recursion is
structural. -/
def dedentMutF (indent : Nat) : Nat → List (List Nat) → Nat → List (List Nat)
  | 0, lines, _ => lines
  | fuel + 1, lines, n =>
    if h : n < lines.length then
      dedentMutF indent fuel
        (lines.set n
          (if indent < (lines.get ⟨n, h⟩).length
           then (lines.get ⟨n, h⟩).drop indent else lines.get ⟨n, h⟩))
        (n + 1)
    else lines

/-- The `Dedented` mutation loop with its trip bound supplied. -/
def dedentMut (indent : Nat) (lines : List (List Nat)) (n : Nat) :
    List (List Nat) :=
  dedentMutF indent lines.length lines n

/-- `Dedented` (to_test.go latest revision, the guarded one): skip blank
leading lines, measure the first retained line's `Indentation`, strip
that many bytes from every sufficiently long following line, join from
the first retained line with `\n`.  `none` models the index-out-of-range
panic of the skip loop when every line is blank (including empty
input). -/
def Dedented (inn : List Nat) : Option (List Nat) :=
  let lines := LinesF inn
  match skipIdx lines with
  | none => none
  | some s =>
    match lines[s]? with
    | none => none
    | some lS =>
      some (strsJoin ((dedentMut (Indentation lS) lines s).drop s) [10])

/-- Modelled from the spec: `maps.Prefix(lines, pre)` from rwxrob/fn
(not in this repository) prepends the literal `pre` to every line. -/
def mapsPre (lines : List (List Nat)) (pre : List Nat) : List (List Nat) :=
  lines.map (fun l => pre ++ l)

/-- `Prefixed` (to.go): split into lines, attach the literal to each
line, join with `\n`; carriage returns of `\r\n` terminators are dropped
by the splitting. -/
def Prefixed (inn pre : List Nat) : List Nat :=
  strsJoin (mapsPre (LinesF inn) pre) [10]

/-- Modelled from the spec: `qstack.Fields` from rwxrob/structs (not in
this repository) splits a string into its maximal runs of
non-whitespace runes, whitespace per `unicode.IsSpace`, dropping all
whitespace; `words.Items()` is this list and `words.Len` its length.
The loop walks the rune sequence accumulating the bytes of the current
word. -/
def wordsGo (cur : List Nat) : List (Nat × List Nat) → List (List Nat)
  | [] => if cur.isEmpty then [] else [cur]
  | (r, bs) :: es =>
    if isSpaceRune r then
      if cur.isEmpty then wordsGo [] es else cur :: wordsGo [] es
    else wordsGo (cur ++ bs) es

/-- The word sequence of a string: whitespace-delimited tokens. -/
def fieldsF (s : List Nat) : List (List Nat) := wordsGo [] (runesB s)

/-- The scan loop of `Wrapped` (to_test.go latest revision): greedy
packing of words into lines of at most `width` bytes, each emitted line
followed by `\n`, accumulating into `acc` (the Go variable `wrapped`). -/
def wrappedGo (width : Int) (ws : List (List Nat)) (curwidth : Int)
    (line : List (List Nat)) (acc : List Nat) : List Nat :=
  match ws with
  | [] => acc ++ strsJoin line [32]
  | cur :: rest =>
    if line.isEmpty then
      wrappedGo width rest ((cur.length : Int) + 1) [cur] acc
    else if curwidth + (cur.length : Int) > width then
      wrappedGo width rest ((cur.length : Int) + 1) [cur]
        (acc ++ strsJoin line [32] ++ [10])
    else
      wrappedGo width rest (curwidth + (cur.length : Int) + 1)
        (line ++ [cur]) acc

/-- `Wrapped` (to_test.go latest revision): word-wrap at the byte width
and return the wrapped string together with the word count.  Width less
than 1 degenerates to joining the words with single spaces. -/
def Wrapped (it : List Nat) (width : Int) : List Nat × Nat :=
  let words := fieldsF it
  if width < 1 then (strsJoin words [32], words.length)
  else (wrappedGo width words 0 [] [], words.length)

/-- `peekWord` (to.go middle revision): the runes from `start` up to the
next `unicode.IsSpace` rune. -/
def peekWord (buf : List Nat) (start : Nat) : List Nat :=
  (buf.drop start).takeWhile (fun r => !isSpaceRune r)

/-- The rune loop of the middle-revision `Wrapped` (to.go lines
259-286): hard `\n` is copied as is and resets the column; any other
whitespace rune whose following word would overflow the width is
replaced by `\n`; every other rune is copied.  `i` indexes into the full
rune slice for `peekWord`. -/
def prevGo (allR : List Nat) (width : Int) (i : Nat) (curwidth : Int) :
    List Nat → List Nat
  | [] => []
  | r :: rest =>
    if r = 10 then 10 :: prevGo allR width (i + 1) 0 rest
    else if isSpaceRune r &&
        decide (width > 0 ∧ curwidth + ((peekWord allR (i + 1)).length : Int) + 1 > width) then
      10 :: prevGo allR width (i + 1) 0 rest
    else r :: prevGo allR width (i + 1) (curwidth + 1) rest

/-- The middle-revision `Wrapped` (to.go lines 259-286), result
represented as its sequence of runes (the Go code rebuilds the string
rune by rune).  Width 0 returns the input unchanged. -/
def prevWrapped (buf : List Nat) (width : Int) : List Nat :=
  if width = 0 then toRunes buf
  else prevGo (toRunes buf) width 0 0 (toRunes buf)

/-- Modelled from the spec: the display-width counter counts code points
classified as graphic (visible glyphs), excluding control and invisible
characters, one column each. -/
def isGraphicRune (r : Nat) : Bool :=
  0x20 ≤ r && r ≠ 0x7F && !(0x80 ≤ r && r ≤ 0x9F)

/-- Modelled from the spec: `display_width` of a string is the number of
its graphic code points. -/
def displayWidth (s : List Nat) : Nat :=
  ((runesB s).filter (fun e => isGraphicRune e.1)).length

/-- Delete the `\r` of every `\r\n` pair: the terminator bytes that line
splitting removes and joining with `\n` does not restore. -/
def removeCR : List Nat → List Nat
  | [] => []
  | [b] => [b]
  | b :: c :: rest =>
    if b = 13 && c = 10 then 10 :: removeCR rest
    else b :: removeCR (c :: rest)

/-- Every carriage return in the string is immediately followed by a
newline (so `\r` occurs only inside `\r\n` terminators). -/
def crlfOnly : List Nat → Bool
  | [] => true
  | [b] => b ≠ 13
  | b :: c :: rest =>
    if b = 13 then c = 10 && crlfOnly (c :: rest)
    else crlfOnly (c :: rest)

/-- A rune sequence contains a rune that is not whitespace. -/
def hasNonWs (es : List (Nat × List Nat)) : Bool :=
  es.any (fun e => !isSpaceRune e.1)

lemma decode1_split (b0 : Nat) (rest : List Nat) :
    (decode1 b0 rest).2.1 ++ (decode1 b0 rest).2.2 = b0 :: rest := by
  rcases rest with _ | ⟨b1, _ | ⟨b2, _ | ⟨b3, rest3⟩⟩⟩ <;>
    simp only [decode1] <;> split_ifs <;> simp

lemma decode1_consumed_ne_nil (b0 : Nat) (rest : List Nat) :
    (decode1 b0 rest).2.1 ≠ [] := by
  rcases rest with _ | ⟨b1, _ | ⟨b2, _ | ⟨b3, rest3⟩⟩⟩ <;>
    simp only [decode1] <;> split_ifs <;> simp

set_option maxHeartbeats 1600000 in
lemma decode1_classify (b0 : Nat) (rest : List Nat) :
    ((decode1 b0 rest).2.1 = [b0] ∧ (decode1 b0 rest).1 = b0 ∧ b0 < 0x80) ∨
    ((∀ b ∈ (decode1 b0 rest).2.1, 0x80 ≤ b) ∧ 0x80 ≤ (decode1 b0 rest).1) := by
  rcases rest with _ | ⟨b1, _ | ⟨b2, _ | ⟨b3, rest3⟩⟩⟩ <;>
    simp only [decode1] <;> split_ifs <;>
    simp_all only [acc3, acc4, contB, Bool.and_eq_true, Bool.or_eq_true,
      bne_iff_ne, beq_iff_eq, decide_eq_true_eq, ne_eq] <;>
    first
      | (left; exact ⟨by trivial, by trivial, by trivial⟩)
      | (right; refine ⟨?_, by omega⟩; intro b hb; fin_cases hb <;> omega)

lemma decode1_rest_le (b0 : Nat) (rest : List Nat) :
    (decode1 b0 rest).2.2.length ≤ rest.length := by
  have h := congrArg List.length (decode1_split b0 rest)
  have h2 := decode1_consumed_ne_nil b0 rest
  simp only [List.length_append, List.length_cons] at h
  have h3 : 1 ≤ (decode1 b0 rest).2.1.length := by
    cases hc : (decode1 b0 rest).2.1 with
    | nil => exact absurd hc h2
    | cons a l => simp
  omega

lemma runesGo_nil (fuel : Nat) : runesGo fuel [] = [] := by
  cases fuel <;> rfl

lemma runesGo_irrel2 : ∀ (f1 f2 : Nat) (s : List Nat), s.length ≤ f1 →
    s.length ≤ f2 → runesGo f1 s = runesGo f2 s := by
  intro f1
  induction f1 with
  | zero =>
    intro f2 s hs1 _
    have : s = [] := List.length_eq_zero.mp (Nat.le_zero.mp hs1)
    subst this
    rw [runesGo_nil, runesGo_nil]
  | succ n ih =>
    intro f2 s hs1 hs2
    cases s with
    | nil => rw [runesGo_nil, runesGo_nil]
    | cons b0 rest =>
      simp only [List.length_cons] at hs1 hs2
      cases f2 with
      | zero => omega
      | succ m =>
        have hr := decode1_rest_le b0 rest
        simp only [runesGo]
        rw [ih m (decode1 b0 rest).2.2 (by omega) (by omega)]

lemma runesB_cons (b0 : Nat) (rest : List Nat) :
    runesB (b0 :: rest) =
      ((decode1 b0 rest).1, (decode1 b0 rest).2.1) ::
        runesB (decode1 b0 rest).2.2 := by
  show runesGo (b0 :: rest).length (b0 :: rest) = _
  simp only [List.length_cons, runesGo]
  rw [runesGo_irrel2 _ _ _ (decode1_rest_le b0 rest) le_rfl]
  rfl

/-- Induction on a byte string following the rune decoding loop. -/
lemma byteStr_induction (P : List Nat → Prop) (h0 : P [])
    (h1 : ∀ b0 rest, P (decode1 b0 rest).2.2 → P (b0 :: rest)) :
    ∀ s, P s := by
  have H : ∀ (n : Nat) (s : List Nat), s.length ≤ n → P s := by
    intro n
    induction n with
    | zero =>
      intro s hs
      have : s = [] := List.length_eq_zero.mp (Nat.le_zero.mp hs)
      subst this; exact h0
    | succ n ih =>
      intro s hs
      cases s with
      | nil => exact h0
      | cons b0 rest =>
        simp only [List.length_cons] at hs
        have hr := decode1_rest_le b0 rest
        exact h1 b0 rest (ih _ (by omega))
  intro s
  exact H s.length s le_rfl

lemma runesB_mem_bytes : ∀ (s : List Nat), ∀ e ∈ runesB s,
    (e.2 = [e.1] ∧ e.1 < 0x80) ∨ ((∀ b ∈ e.2, 0x80 ≤ b) ∧ 0x80 ≤ e.1) := by
  apply byteStr_induction
  · simp [runesB, runesGo]
  · intro b0 rest ih e he
    rw [runesB_cons] at he
    rcases List.mem_cons.mp he with rfl | he
    ·
      rcases decode1_classify b0 rest with ⟨hc, hr, hb⟩ | ⟨hc, hr⟩
      · left
        refine ⟨?_, ?_⟩
        · show (decode1 b0 rest).2.1 = [(decode1 b0 rest).1]
          rw [hc, hr]
        · show (decode1 b0 rest).1 < 0x80
          rw [hr]; exact hb
      · right; exact ⟨hc, hr⟩
    · exact ih e he

lemma runesB_cons_inv {s : List Nat} {e : Nat × List Nat}
    {es : List (Nat × List Nat)} (h : runesB s = e :: es) :
    e.2 ≠ [] ∧ ∃ rest, s = e.2 ++ rest ∧ runesB rest = es := by
  cases s with
  | nil => simp [runesB, runesGo] at h
  | cons b0 rest =>
    rw [runesB_cons] at h
    injection h with h1 h2
    subst h1
    exact ⟨decode1_consumed_ne_nil b0 rest,
      (decode1 b0 rest).2.2, (decode1_split b0 rest).symm, h2⟩

lemma wordsGo_ne_nil : ∀ (es : List (Nat × List Nat)) (cur : List Nat),
    ∀ w ∈ wordsGo cur es, w ≠ [] := by
  intro es
  induction es with
  | nil =>
    intro cur w hw
    simp only [wordsGo] at hw
    split_ifs at hw with h
    · simp at hw
    · rcases List.mem_singleton.mp hw with rfl
      exact fun hn => h (by simp [hn])
  | cons e es ih =>
    intro cur w hw
    simp only [wordsGo] at hw
    split_ifs at hw with h1 h2
    · exact ih [] w hw
    · rcases List.mem_cons.mp hw with rfl | hw
      · exact fun hn => h2 (by simp [hn])
      · exact ih [] w hw
    · exact ih (cur ++ e.2) w hw

lemma wordsGo_bytes : ∀ (es : List (Nat × List Nat)) (cur : List Nat),
    (∀ e ∈ es, (e.2 = [e.1] ∧ e.1 < 0x80) ∨
      ((∀ b ∈ e.2, 0x80 ≤ b) ∧ 0x80 ≤ e.1)) →
    (∀ b ∈ cur, b < 0x80 → isSpaceRune b = false) →
    ∀ w ∈ wordsGo cur es, ∀ b ∈ w, b < 0x80 → isSpaceRune b = false := by
  intro es
  induction es with
  | nil =>
    intro cur _ hcur w hw
    simp only [wordsGo] at hw
    split_ifs at hw
    · simp at hw
    · rcases List.mem_singleton.mp hw with rfl
      exact hcur
  | cons e es ih =>
    intro cur hes hcur w hw
    have hese : ∀ x ∈ es, (x.2 = [x.1] ∧ x.1 < 0x80) ∨
        ((∀ b ∈ x.2, 0x80 ≤ b) ∧ 0x80 ≤ x.1) :=
      fun x hx => hes x (List.mem_cons_of_mem e hx)
    simp only [wordsGo] at hw
    split_ifs at hw with h1 h2
    · exact ih [] hese (by simp) w hw
    · rcases List.mem_cons.mp hw with rfl | hw
      · exact hcur
      · exact ih [] hese (by simp) w hw
    · refine ih (cur ++ e.2) hese ?_ w hw
      intro b hb hlt
      rcases List.mem_append.mp hb with hb | hb
      · exact hcur b hb hlt
      · rcases hes e (List.mem_cons_self e es) with ⟨hc, _⟩ | ⟨hc, _⟩
        · rw [hc] at hb
          rcases List.mem_singleton.mp hb with rfl
          simpa using h1
        · exact absurd (hc b hb) (by omega)

/-- Every whitespace-delimited token is nonempty and contains no
single-byte whitespace character (in particular no newline and no
carriage return). -/
lemma fields_ok (s : List Nat) : ∀ w ∈ fieldsF s,
    w ≠ [] ∧ ∀ b ∈ w, b < 0x80 → isSpaceRune b = false := by
  intro w hw
  exact ⟨wordsGo_ne_nil (runesB s) [] w hw,
    wordsGo_bytes (runesB s) [] (runesB_mem_bytes s) (by simp) w hw⟩

lemma fields_no10 (s : List Nat) : ∀ w ∈ fieldsF s, 10 ∉ w := by
  intro w hw h10
  have := (fields_ok s w hw).2 10 h10 (by omega)
  simp [isSpaceRune] at this

lemma fields_no13 (s : List Nat) : ∀ w ∈ fieldsF s, 13 ∉ w := by
  intro w hw h13
  have := (fields_ok s w hw).2 13 h13 (by omega)
  simp [isSpaceRune] at this

lemma getLast?_mem_self {l : List Nat} {a : Nat} (h : l.getLast? = some a) :
    a ∈ l := by
  have hm : a ∈ l.getLast? := by rw [h]; rfl
  rcases List.mem_getLast?_eq_getLast hm with ⟨hne, heq⟩
  rw [heq]
  exact List.getLast_mem hne

lemma dropCR_of_no13 (l : List Nat) (h : 13 ∉ l) : dropCR l = l := by
  unfold dropCR
  split_ifs with hl
  · exact absurd (getLast?_mem_self hl) h
  · rfl

lemma linesGo_split (tl : List Nat) : ∀ (chunk acc : List Nat), 10 ∉ chunk →
    linesGo acc (chunk ++ 10 :: tl) = dropCR (acc ++ chunk) :: linesGo [] tl := by
  intro chunk
  induction chunk with
  | nil => intro acc _; simp [linesGo]
  | cons b chunk ih =>
    intro acc hb
    have hb10 : b ≠ 10 := fun h => hb (by simp [h])
    simp only [List.cons_append, linesGo, hb10, if_false, ite_false,
      List.append_eq]
    rw [ih (acc ++ [b]) (fun h => hb (List.mem_cons_of_mem b h))]
    simp

lemma linesGo_nosplit : ∀ (s acc : List Nat), 10 ∉ s →
    linesGo acc s = if (acc ++ s).isEmpty then [] else [dropCR (acc ++ s)] := by
  intro s
  induction s with
  | nil => intro acc _; simp [linesGo]
  | cons b s ih =>
    intro acc hb
    have hb10 : b ≠ 10 := fun h => hb (by simp [h])
    simp only [linesGo, hb10, if_false, ite_false, List.append_eq]
    rw [ih (acc ++ [b]) (fun h => hb (List.mem_cons_of_mem b h))]
    simp

lemma linesGo_no10 : ∀ (s acc : List Nat), 10 ∉ acc →
    ∀ l ∈ linesGo acc s, 10 ∉ l := by
  intro s
  induction s with
  | nil =>
    intro acc hacc l hl
    simp only [linesGo] at hl
    split_ifs at hl
    · simp at hl
    · rcases List.mem_singleton.mp hl with rfl
      intro h10
      unfold dropCR at h10
      split_ifs at h10
      · exact hacc (List.dropLast_subset _ h10)
      · exact hacc h10
  | cons b s ih =>
    intro acc hacc l hl
    simp only [linesGo] at hl
    split_ifs at hl with hb
    · rcases List.mem_cons.mp hl with rfl | hl
      · intro h10
        unfold dropCR at h10
        split_ifs at h10
        · exact hacc (List.dropLast_subset _ h10)
        · exact hacc h10
      · exact ih [] (by simp) l hl
    · refine ih (acc ++ [b]) ?_ l hl
      intro h
      rcases List.mem_append.mp h with h | h
      · exact hacc h
      · rcases List.mem_singleton.mp h with rfl
        exact hb rfl

lemma LinesF_no10 (s : List Nat) : ∀ l ∈ LinesF s, 10 ∉ l :=
  linesGo_no10 s [] (by simp)

lemma strsJoin_cons (a : List Nat) (rest : List (List Nat)) (sep : List Nat)
    (h : rest ≠ []) :
    strsJoin (a :: rest) sep = a ++ sep ++ strsJoin rest sep := by
  cases rest with
  | nil => exact absurd rfl h
  | cons b r => rfl

lemma strsJoin_not_mem (ls : List (List Nat)) (sep : List Nat) (c : Nat)
    (hls : ∀ l ∈ ls, c ∉ l) (hsep : c ∉ sep) : c ∉ strsJoin ls sep := by
  induction ls with
  | nil => simp [strsJoin]
  | cons a rest ih =>
    cases rest with
    | nil => exact hls a (by simp)
    | cons b r =>
      rw [strsJoin_cons _ _ _ (by simp)]
      intro h
      rcases List.mem_append.mp h with h | h
      · rcases List.mem_append.mp h with h | h
        · exact hls a (by simp) h
        · exact hsep h
      · exact ih (fun l hl => hls l (List.mem_cons_of_mem a hl)) h

lemma strsJoin_ne_nil (a : List Nat) (rest : List (List Nat)) (sep : List Nat)
    (ha : a ≠ []) : strsJoin (a :: rest) sep ≠ [] := by
  cases rest with
  | nil => exact ha
  | cons b r =>
    rw [strsJoin_cons _ _ _ (by simp)]
    simp only [List.append_assoc, ne_eq, List.append_eq_nil]
    intro h
    exact ha h.1

lemma strsJoin_append_last (sep cur : List Nat) :
    ∀ (line : List (List Nat)), line ≠ [] →
    strsJoin (line ++ [cur]) sep = strsJoin line sep ++ sep ++ cur := by
  intro line
  induction line with
  | nil => intro h; exact absurd rfl h
  | cons a rest ih =>
    intro _
    cases rest with
    | nil => rfl
    | cons b r =>
      rw [List.cons_append, strsJoin_cons _ _ _ (by simp),
        strsJoin_cons _ _ _ (by simp), ih (by simp)]
      simp [List.append_assoc]

lemma runesB_ne_nil (b0 : Nat) (rest : List Nat) : runesB (b0 :: rest) ≠ [] := by
  rw [runesB_cons]
  simp

lemma indGo_cons_nonspace (pos : Nat) (e : Nat × List Nat)
    (es : List (Nat × List Nat)) (h : isSpaceRune e.1 = false) :
    indGo pos (e :: es) = pos := by
  cases es with
  | nil => rcases e with ⟨r, bs⟩; simp [indGo, h]
  | cons f es => rcases e with ⟨r, bs⟩; simp only [indGo, h]; simp

lemma indGo_shift : ∀ (es : List (Nat × List Nat)) (pos : Nat), es ≠ [] →
    indGo pos es = pos + indGo 0 es := by
  intro es
  induction es with
  | nil => intro pos h; exact absurd rfl h
  | cons e es ih =>
    intro pos _
    cases es with
    | nil => rcases e with ⟨r, bs⟩; simp [indGo]
    | cons f es =>
      rcases e with ⟨r, bs⟩
      by_cases hr : isSpaceRune r
      · simp only [indGo, hr, if_true, ite_true]
        rw [ih _ (by simp), ih (0 + bs.length) (by simp)]
        omega
      · rw [indGo_cons_nonspace _ _ _ (by simp [hr]),
          indGo_cons_nonspace _ _ _ (by simp [hr])]
        omega

lemma drop_append_len {l1 l2 : List Nat} (n : Nat) :
    (l1 ++ l2).drop (l1.length + n) = l2.drop n := by
  rw [List.drop_append_eq_append_drop]
  simp

/-- On a string that contains a non-whitespace rune, `Indentation` stops
strictly inside the string, at the byte offset of the first
non-whitespace rune. -/
lemma indent_hasNonWs : ∀ (s : List Nat), hasNonWs (runesB s) = true →
    Indentation s < s.length ∧
    ∃ r bs es, runesB (s.drop (Indentation s)) = (r, bs) :: es ∧
      isSpaceRune r = false := by
  apply byteStr_induction
  · intro h
    simp [runesB, runesGo, hasNonWs] at h
  · intro b0 rest ih h
    rw [runesB_cons] at h
    by_cases hsp : isSpaceRune (decode1 b0 rest).1
    · have htail : hasNonWs (runesB (decode1 b0 rest).2.2) = true := by
        simp only [hasNonWs, List.any_cons, hsp, Bool.not_true,
          Bool.false_or] at h
        exact h
      have ihr := ih htail
      have htne : runesB (decode1 b0 rest).2.2 ≠ [] := by
        intro hnil
        rw [hnil] at htail
        simp [hasNonWs] at htail
      have hind : Indentation (b0 :: rest) =
          (decode1 b0 rest).2.1.length + Indentation (decode1 b0 rest).2.2 := by
        unfold Indentation
        rw [runesB_cons]
        cases hte : runesB (decode1 b0 rest).2.2 with
        | nil => exact absurd hte htne
        | cons f es =>
          simp only [indGo, hsp, if_true, ite_true, Nat.zero_add]
          rw [← hte, indGo_shift _ _ (by rw [hte]; simp)]
      have hsplit : (b0 :: rest) =
          (decode1 b0 rest).2.1 ++ (decode1 b0 rest).2.2 :=
        (decode1_split b0 rest).symm
      constructor
      · rw [hind, hsplit]
        simp only [List.length_append]
        omega
      · rw [hind, hsplit, drop_append_len]
        exact ihr.2
    · have hind : Indentation (b0 :: rest) = 0 := by
        unfold Indentation
        rw [runesB_cons]
        exact indGo_cons_nonspace _ _ _ (by simp [hsp])
      rw [hind]
      refine ⟨by simp, ?_⟩
      simp only [List.drop_zero]
      rw [runesB_cons]
      exact ⟨_, _, _, rfl, by simp [hsp]⟩

/-- The five bytes matched by the Go regexp `\s` are all
`unicode.IsSpace` runes. -/
lemma blankset_isSpace (b : Nat)
    (h : b = 9 ∨ b = 10 ∨ b = 12 ∨ b = 13 ∨ b = 32) :
    isSpaceRune b = true := by
  rcases h with rfl | rfl | rfl | rfl | rfl <;> rfl

lemma isblankB_mem {l : List Nat} (h : isblankB l = true) {b : Nat}
    (hb : b ∈ l) : b = 9 ∨ b = 10 ∨ b = 12 ∨ b = 13 ∨ b = 32 := by
  unfold isblankB at h
  rw [List.all_eq_true] at h
  have := h b hb
  simp only [Bool.or_eq_true, decide_eq_true_eq] at this
  tauto

/-- After dropping its `Indentation`, a string with a non-whitespace
rune starts with that rune: its indentation is 0, it is nonempty, and
it is not blank. -/
lemma indent_drop_props (s : List Nat) (h : hasNonWs (runesB s) = true) :
    Indentation (s.drop (Indentation s)) = 0 ∧
    s.drop (Indentation s) ≠ [] ∧
    isblankB (s.drop (Indentation s)) = false := by
  obtain ⟨-, r, bs, es, hre, hrsp⟩ := indent_hasNonWs s h
  obtain ⟨hbs, rest, hsr, -⟩ := runesB_cons_inv hre
  set K := Indentation s with hK
  refine ⟨?_, ?_, ?_⟩
  · show indGo 0 (runesB (s.drop K)) = 0
    rw [hre]
    exact indGo_cons_nonspace _ _ _ hrsp
  · intro hnil
    rw [hnil] at hre
    simp [runesB, runesGo] at hre
  · by_contra hbl
    rw [Bool.not_eq_false] at hbl
    have hmem : ∀ b ∈ (r, bs) :: es, (b.2 = [b.1] ∧ b.1 < 0x80) ∨
        ((∀ x ∈ b.2, 0x80 ≤ x) ∧ 0x80 ≤ b.1) := by
      rw [← hre]
      exact runesB_mem_bytes _
    have hhead := hmem (r, bs) (by simp)
    cases bs with
    | nil => exact hbs rfl
    | cons c cs =>
      have hcmem : c ∈ s.drop (Indentation s) := by
        rw [hsr]; simp
      have hcrange := isblankB_mem hbl hcmem
      rcases hhead with ⟨hc1, hc2⟩ | ⟨hc1, -⟩
      · simp only at hc1 hc2
        have hcr : c = r := by injection hc1
        rw [hcr] at hcrange
        rw [blankset_isSpace r hcrange] at hrsp
        exact Bool.true_eq_false.mp hrsp
      · have := hc1 c (by simp)
        omega

/-- The per-line transformation performed by the `Dedented` loop: a line
strictly longer than `indent` loses its first `indent` bytes, any other
line is left untouched. -/
def dedLine (indent : Nat) (l : List Nat) : List Nat :=
  if indent < l.length then l.drop indent else l

lemma dedentMutF_eq : ∀ (fuel indent : Nat) (lines : List (List Nat))
    (n : Nat), lines.length ≤ fuel + n →
    dedentMutF indent fuel lines n =
      lines.take n ++ (lines.drop n).map (dedLine indent) := by
  intro fuel
  induction fuel with
  | zero =>
    intro indent lines n h
    simp only [dedentMutF]
    rw [List.drop_eq_nil_of_le (by omega), List.take_of_length_le (by omega)]
    simp
  | succ fuel ih =>
    intro indent lines n h
    simp only [dedentMutF]
    split
    case isTrue hn =>
      set v := (if indent < (lines.get ⟨n, hn⟩).length
        then (lines.get ⟨n, hn⟩).drop indent else lines.get ⟨n, hn⟩) with hvdef
      rw [ih indent _ (n + 1) (by rw [List.length_set]; omega)]
      have hset : lines.set n v = lines.take n ++ v :: lines.drop (n + 1) :=
        List.set_eq_take_cons_drop v hn
      have hlt : (lines.take n).length = n := by
        rw [List.length_take]; omega
      have htake : (lines.set n v).take (n + 1) = lines.take n ++ [v] := by
        rw [hset, List.take_append_eq_append_take, hlt]
        rw [List.take_of_length_le (by rw [hlt]; omega)]
        have hone : n + 1 - n = 1 := by omega
        rw [hone]
        rfl
      have hdrop : (lines.set n v).drop (n + 1) = lines.drop (n + 1) := by
        rw [hset, List.drop_append_eq_append_drop, hlt]
        rw [List.drop_eq_nil_of_le (by rw [hlt]; omega)]
        have hone : n + 1 - n = 1 := by omega
        rw [hone]
        rfl
      rw [htake, hdrop, List.drop_eq_getElem_cons hn, List.map_cons]
      have hv : v = dedLine indent lines[n] := by
        rw [hvdef, List.get_eq_getElem]
        rfl
      rw [hv]
      simp
    case isFalse hn =>
      rw [List.drop_eq_nil_of_le (by omega), List.take_of_length_le (by omega)]
      simp

lemma dedentMut_drop (indent : Nat) (lines : List (List Nat)) (n : Nat)
    (h : n ≤ lines.length) :
    (dedentMut indent lines n).drop n = (lines.drop n).map (dedLine indent) := by
  unfold dedentMut
  rw [dedentMutF_eq _ _ _ _ (by omega)]
  rw [List.drop_append_eq_append_drop, List.drop_eq_nil_of_le
    (by rw [List.length_take]; omega), List.length_take]
  have hz : n - min n lines.length = 0 := by omega
  rw [hz]
  simp

lemma skipIdx_props : ∀ (ls : List (List Nat)) (s : Nat),
    skipIdx ls = some s →
    s < ls.length ∧ ∃ l, ls[s]? = some l ∧ l ≠ [] ∧ isblankB l = false := by
  intro ls
  induction ls with
  | nil => intro s h; simp [skipIdx] at h
  | cons a rest ih =>
    intro s h
    simp only [skipIdx] at h
    split_ifs at h with ha
    · cases hs : skipIdx rest with
      | none => rw [hs] at h; simp at h
      | some s0 =>
        rw [hs] at h
        simp only [Option.map_some'] at h
        injection h with h
        subst h
        obtain ⟨h1, l, h2, h3, h4⟩ := ih s0 hs
        refine ⟨by simp; omega, l, ?_, h3, h4⟩
        simpa using h2
    · injection h with h
      subst h
      rw [Bool.not_eq_true, Bool.or_eq_false_iff] at ha
      refine ⟨by simp, a, by simp, ?_, ha.2⟩
      intro hnil
      subst hnil
      simp at ha

/-- `Dedented` on an input with a non-blank line: the lines from the
first non-blank one, each transformed by `dedLine`, joined with
newlines. -/
lemma Dedented_eq (inn : List Nat) (s : Nat) (lS : List Nat)
    (hs : skipIdx (LinesF inn) = some s)
    (hlS : (LinesF inn)[s]? = some lS) :
    Dedented inn = some (strsJoin (((LinesF inn).drop s).map
      (dedLine (Indentation lS))) [10]) := by
  unfold Dedented
  simp only [hs, hlS]
  rw [dedentMut_drop _ _ _ (le_of_lt (skipIdx_props _ _ hs).1)]

lemma dropCR_of_last_ne (l : List Nat) (h : l.getLast? ≠ some 13) :
    dropCR l = l := by
  unfold dropCR
  split_ifs with hl
  · exact absurd hl h
  · rfl

/-- Splitting a newline join recovers the joined lines, provided no line
contains a newline, none ends in a carriage return, and the final line
is nonempty. -/
lemma LinesF_roundtrip : ∀ (ls : List (List Nat)), ls ≠ [] →
    (∀ l ∈ ls, 10 ∉ l) → (∀ l ∈ ls, l.getLast? ≠ some 13) →
    ls.getLast? ≠ some [] → LinesF (strsJoin ls [10]) = ls := by
  intro ls
  induction ls with
  | nil => intro h; exact absurd rfl h
  | cons a rest ih =>
    intro _ h10 h13 hlast
    cases rest with
    | nil =>
      have ha : a ≠ [] := by
        intro h
        apply hlast
        rw [h]
        rfl
      show linesGo [] (strsJoin [a] [10]) = [a]
      rw [show strsJoin [a] [10] = a from rfl]
      rw [linesGo_nosplit a [] (h10 a (by simp))]
      rw [List.nil_append, dropCR_of_last_ne a (h13 a (by simp))]
      simp [ha]
    | cons b r =>
      rw [strsJoin_cons a (b :: r) [10] (by simp)]
      show linesGo [] (a ++ [10] ++ strsJoin (b :: r) [10]) = a :: b :: r
      rw [List.append_assoc, List.singleton_append]
      rw [linesGo_split _ a [] (h10 a (by simp))]
      rw [List.nil_append, dropCR_of_last_ne a (h13 a (by simp))]
      have hrt : LinesF (strsJoin (b :: r) [10]) = b :: r := by
        refine ih (by simp) ?_ ?_ ?_
        · intro l hl; exact h10 l (List.mem_cons_of_mem a hl)
        · intro l hl; exact h13 l (List.mem_cons_of_mem a hl)
        · rw [← List.getLast?_cons_cons (l := r) (a := a) (b := b)]
          exact hlast
      exact congrArg (a :: ·) hrt

/-- Claim C3: the spec requires `Dedented` to be total — returning the
input unchanged or an explicit all-blank signal — but the skip loop of
the code indexes `lines[n]` past the end of the slice on any input
whose lines are all blank, including the empty string; `none` is that
index-out-of-range panic. -/
theorem dedented_all_blank_panics :
    Dedented [] = none ∧ Dedented [32, 10, 32, 10] = none := by decide

/-- Claim C5: the word count returned by `Wrapped` is the number of
whitespace-delimited tokens of the input and is the same for any two
widths at least 1. -/
theorem wrapped_word_count_invariant (text : List Nat) (w1 w2 : Int)
    (_h1 : 1 ≤ w1) (_h2 : 1 ≤ w2) :
    (Wrapped text w1).2 = (Wrapped text w2).2 := by
  unfold Wrapped
  split_ifs <;> rfl

/-- Witness for claim C5 at text "some thing", widths 3 and 40. -/
theorem wrapped_word_count_invariant_w :
    (Wrapped [115, 111, 109, 101, 32, 116, 104, 105, 110, 103] 3).2 =
      (Wrapped [115, 111, 109, 101, 32, 116, 104, 105, 110, 103] 40).2 :=
  wrapped_word_count_invariant _ 3 40 (by decide) (by decide)

/-- Claim C6: for width below 1, `Wrapped` returns the
whitespace-collapsed, end-trimmed word sequence joined by single
spaces — with no newline anywhere in the result — together with the
word count. -/
theorem wrapped_degenerate_width (text : List Nat) (w : Int) (hw : w < 1) :
    Wrapped text w =
      (strsJoin (fieldsF text) [32], (fieldsF text).length) ∧
    10 ∉ (Wrapped text w).1 := by
  have he : Wrapped text w =
      (strsJoin (fieldsF text) [32], (fieldsF text).length) := by
    unfold Wrapped
    rw [if_pos hw]
  refine ⟨he, ?_⟩
  rw [he]
  exact strsJoin_not_mem _ _ 10 (fields_no10 text) (by simp)

/-- Witness for claim C6 at text " a  b " and width 0. -/
theorem wrapped_degenerate_width_w :
    Wrapped [32, 97, 32, 32, 98, 32] 0 = ([97, 32, 98], 2) ∧
      10 ∉ (Wrapped [32, 97, 32, 32, 98, 32] 0).1 := by
  have h := wrapped_degenerate_width [32, 97, 32, 32, 98, 32] 0 (by decide)
  exact ⟨by rw [h.1]; decide, h.2⟩

/-- Counterexample to claim C2 as stated: the current `Wrapped`
(to_test.go, latest revision) erases the embedded hard break of
"a\nb" — the output at width 10 is "a b", which contains no newline at
all. -/
theorem wrapped_erases_hard_breaks_cex :
    10 ∈ ([97, 10, 98] : List Nat) ∧
    (Wrapped [97, 10, 98] 10).1 = [97, 32, 98] ∧
    10 ∉ (Wrapped [97, 10, 98] 10).1 := by decide

/-- Counterexample to claim C4 as stated: dedenting "  ab\nx" measures
K = 2, and the claim demands that the short line "x" lose all its
characters and become empty; the code leaves any line of length at most
K untouched, producing "ab\nx", not "ab\n". -/
theorem dedented_short_line_cex :
    Dedented [32, 32, 97, 98, 10, 120] = some [97, 98, 10, 120] ∧
    ([97, 98, 10, 120] : List Nat) ≠ [97, 98, 10] := by decide

/-- Counterexample to claim C7 as stated: "a\r" does not end in a line
terminator (a terminator is `\r?\n`), and its `\r` is not a terminator
byte, yet the splitter drops it: joining `Lines("a\r")` gives "a",
not "a\r". -/
theorem lines_reconstruction_cex :
    strsJoin (LinesF [97, 13]) [10] = [97] ∧
    removeCR [97, 13] = [97, 13] ∧
    strsJoin (LinesF [97, 13]) [10] ≠ removeCR [97, 13] := by decide

/-- Counterexample to claim C8 as stated: on the all-whitespace line
"   " the range loop ends with `n` at the offset of the last rune, so
`Indentation` returns 2, not the full length 3; and on a non-ASCII
whitespace prefix (U+00A0 is two bytes) it returns the byte offset 2,
not the code-point count 1. -/
theorem indentation_whitespace_cex :
    Indentation [32, 32, 32] = 2 ∧
    Indentation [32, 32, 32] ≠ [32, 32, 32].length ∧
    Indentation [0xC2, 0xA0, 120] = 2 ∧
    Indentation [0xC2, 0xA0, 120] ≠ 1 := by decide

/-- Counterexample to claim C9 as stated: "foo\n\n" has a non-blank
line, but its dedent "foo\n" is not a fixed point — the trailing empty
line is consumed by the second line split, so dedenting again gives
"foo". -/
theorem dedented_idempotence_cex :
    Dedented [102, 111, 111, 10, 10] = some [102, 111, 111, 10] ∧
    Dedented [102, 111, 111, 10] = some [102, 111, 111] ∧
    ([102, 111, 111] : List Nat) ≠ [102, 111, 111, 10] := by decide

/-- Counterexample to claim C10 as stated: a carriage return in the
middle of a line survives splitting and prefixing — `Prefixed("a\rb",
"P")` contains `\r` even though the prefix does not. -/
theorem prefixed_carriage_cex :
    13 ∉ ([80] : List Nat) ∧ 13 ∈ Prefixed [97, 13, 98] [80] := by decide

lemma prevGo_props : ∀ (rem allR : List Nat) (w : Int) (i : Nat) (c : Int),
    (prevGo allR w i c rem).length = rem.length ∧
    rem.count 10 ≤ (prevGo allR w i c rem).count 10 ∧
    ∀ j : Nat, rem[j]? = some 10 → (prevGo allR w i c rem)[j]? = some 10 := by
  intro rem
  induction rem with
  | nil => intro allR w i c; simp [prevGo]
  | cons r rest ih =>
    intro allR w i c
    simp only [prevGo]
    split_ifs with h1 h2
    · subst h1
      obtain ⟨hl, hc, hj⟩ := ih allR w (i + 1) 0
      refine ⟨by simp [hl], ?_, ?_⟩
      · simp only [List.count_cons, beq_iff_eq] at hc ⊢
        split_ifs <;> omega
      · intro j hjj
        cases j with
        | zero => simp
        | succ j =>
          simp only [List.getElem?_cons_succ] at hjj ⊢
          exact hj j hjj
    · obtain ⟨hl, hc, hj⟩ := ih allR w (i + 1) 0
      refine ⟨by simp [hl], ?_, ?_⟩
      · simp only [List.count_cons, beq_iff_eq] at hc ⊢
        split_ifs <;> omega
      · intro j hjj
        cases j with
        | zero =>
          simp only [List.getElem?_cons_zero] at hjj
          injection hjj with hjj
          exact absurd hjj h1
        | succ j =>
          simp only [List.getElem?_cons_succ] at hjj ⊢
          exact hj j hjj
    · obtain ⟨hl, hc, hj⟩ := ih allR w (i + 1) (c + 1)
      refine ⟨by simp [hl], ?_, ?_⟩
      · simp only [List.count_cons, beq_iff_eq] at hc ⊢
        split_ifs <;> omega
      · intro j hjj
        cases j with
        | zero => simpa using hjj
        | succ j =>
          simp only [List.getElem?_cons_succ] at hjj ⊢
          exact hj j hjj

/-- Claim C2 amended: the rune-based revision of `Wrapped` (to.go lines
259-286) keeps every embedded hard break: each position holding `\n` in
the input still holds `\n` in the output (soft breaks only ever turn
whitespace into additional `\n`), so the output never has fewer
newlines than the input.  The current revision erases them instead (see
the counterexample). -/
theorem prev_wrapped_keeps_hard_breaks (buf : List Nat) (w : Int) :
    (toRunes buf).count 10 ≤ (prevWrapped buf w).count 10 ∧
    ∀ j : Nat, (toRunes buf)[j]? = some 10 →
      (prevWrapped buf w)[j]? = some 10 := by
  unfold prevWrapped
  split_ifs with h0
  · exact ⟨le_rfl, fun j hj => hj⟩
  · obtain ⟨-, hc, hj⟩ := prevGo_props (toRunes buf) (toRunes buf) w 0 0
    exact ⟨hc, hj⟩

/-- Witness for the amended claim C2 at input "a\nb", width 5. -/
theorem prev_wrapped_keeps_hard_breaks_w :
    (prevWrapped [97, 10, 98] 5)[1]? = some 10 :=
  (prev_wrapped_keeps_hard_breaks [97, 10, 98] 5).2 1 (by decide)

lemma runesB_cons_ascii (b : Nat) (t : List Nat) (hb : b < 0x80) :
    runesB (b :: t) = (b, [b]) :: runesB t := by
  rw [runesB_cons]
  simp [decode1, hb]

lemma runesB_of_ne_nil (s : List Nat) (hs : s ≠ []) : runesB s ≠ [] := by
  cases s with
  | nil => exact absurd rfl hs
  | cons b t => exact runesB_ne_nil b t

lemma indentation_cons_space (t : List Nat) (ht : t ≠ []) :
    Indentation (32 :: t) = 1 + Indentation t := by
  unfold Indentation
  rw [runesB_cons_ascii 32 t (by omega)]
  cases hrt : runesB t with
  | nil => exact absurd hrt (runesB_of_ne_nil t ht)
  | cons e es =>
    have h32 : isSpaceRune 32 = true := by decide
    simp only [indGo, h32, if_true, ite_true, List.length_singleton]
    rw [← hrt, indGo_shift (runesB t) _ (by rw [hrt]; simp)]

/-- Claim C8 amended: `Indentation` reports byte offsets of the range
loop, not code-point counts: the offset of the first non-whitespace
rune after an ASCII space prefix (so 4 for "    some" and 1 for
" 💚ome" — but 2, not 1, after the two-byte U+00A0); the offset of the
last rune for a nonempty all-space line (k, not the length k+1); and 0
for the empty line. -/
theorem indentation_byte_offsets :
    (∀ (k b : Nat) (rest : List Nat), isSpaceRune b = false → b < 0x80 →
      Indentation (List.replicate k 32 ++ b :: rest) = k) ∧
    (∀ k : Nat, Indentation (List.replicate (k + 1) 32) = k) ∧
    Indentation [] = 0 ∧
    Indentation [32, 240, 159, 146, 154, 111, 109, 101] = 1 ∧
    Indentation [0xC2, 0xA0, 120] = 2 := by
  refine ⟨?_, ?_, by decide, by decide, by decide⟩
  · intro k
    induction k with
    | zero =>
      intro b rest hb hlt
      simp only [List.replicate_zero, List.nil_append]
      unfold Indentation
      rw [runesB_cons_ascii b rest hlt]
      exact indGo_cons_nonspace _ _ _ (by simp [hb])
    | succ k ih =>
      intro b rest hb hlt
      rw [List.replicate_succ, List.cons_append,
        indentation_cons_space _ (by simp), ih b rest hb hlt]
      omega
  · intro k
    induction k with
    | zero => decide
    | succ k ih =>
      rw [List.replicate_succ, indentation_cons_space _ (by simp), ih]
      omega

/-- Witness for the amended claim C8: the first conjunct at
"    s" (four spaces then a letter) and the second at three spaces. -/
theorem indentation_byte_offsets_w :
    Indentation (List.replicate 4 32 ++ 115 :: []) = 4 ∧
    Indentation (List.replicate 3 32) = 2 :=
  ⟨indentation_byte_offsets.1 4 115 [] (by decide) (by decide),
    indentation_byte_offsets.2.1 2⟩

/-- Claim C4 amended: with S the index of the first non-blank line and
K the indentation of that line, `Dedented` joins the lines from S on,
where each line of byte length strictly greater than K loses its first
K bytes and every other line (length at most K, including exactly K) is
left unchanged — no line is ever emptied or padded. -/
theorem dedented_line_transform (inn : List Nat) (s : Nat) (lS : List Nat)
    (hs : skipIdx (LinesF inn) = some s)
    (hlS : (LinesF inn)[s]? = some lS) :
    Dedented inn = some (strsJoin (((LinesF inn).drop s).map
      (dedLine (Indentation lS))) [10]) :=
  Dedented_eq inn s lS hs hlS

/-- Witness for the amended claim C4 at input "  ab\nx": K = 2, the
long first line becomes "ab", the short line "x" is unchanged. -/
theorem dedented_line_transform_w :
    Dedented [32, 32, 97, 98, 10, 120] = some [97, 98, 10, 120] := by
  rw [dedented_line_transform [32, 32, 97, 98, 10, 120] 0 [32, 32, 97, 98]
    (by decide) (by decide)]
  decide

lemma removeCR_cons10 (tl : List Nat) :
    removeCR (10 :: tl) = 10 :: removeCR tl := by
  cases tl with
  | nil => rfl
  | cons c tl => simp [removeCR]

lemma removeCR_no10 : ∀ (t : List Nat), 10 ∉ t → removeCR t = t := by
  intro t
  induction t with
  | nil => intro _; rfl
  | cons b rest ih =>
    intro hm
    cases rest with
    | nil => rfl
    | cons c tl =>
      have hc : c ≠ 10 := fun h => hm (by simp [h])
      simp only [removeCR, Bool.and_eq_true, decide_eq_true_eq]
      rw [if_neg (by simp [hc])]
      rw [ih (fun h => hm (List.mem_cons_of_mem b h))]

lemma dropCR_cons (b : Nat) (l : List Nat) (hl : l ≠ []) :
    dropCR (b :: l) = b :: dropCR l := by
  cases l with
  | nil => exact absurd rfl hl
  | cons x xs =>
    unfold dropCR
    rw [List.getLast?_cons_cons]
    split_ifs
    · rw [List.dropLast_cons₂]
    · rfl

lemma removeCR_split : ∀ (tok tl : List Nat), 10 ∉ tok →
    removeCR (tok ++ 10 :: tl) = dropCR tok ++ 10 :: removeCR tl := by
  intro tok
  induction tok with
  | nil =>
    intro tl _
    rw [List.nil_append, removeCR_cons10]
    rfl
  | cons b tok ih =>
    intro tl hm
    have hb : b ≠ 10 := fun h => hm (by simp [h])
    cases tok with
    | nil =>
      simp only [List.nil_append, List.cons_append, removeCR,
        Bool.and_eq_true, decide_eq_true_eq]
      split_ifs with hif
      · rw [hif.1]
        rfl
      · rw [removeCR_cons10]
        have hb13 : b ≠ 13 := by
          intro h
          exact hif ⟨h, by trivial⟩
        have : dropCR [b] = [b] := by
          unfold dropCR
          rw [if_neg (by simp [hb13])]
        rw [this]
        rfl
    | cons c tok2 =>
      have hc : c ≠ 10 := fun h => hm (by simp [h])
      simp only [List.cons_append, removeCR, Bool.and_eq_true,
        decide_eq_true_eq, List.append_eq]
      rw [if_neg (by simp [hc])]
      rw [← List.cons_append, ih tl (fun h => hm (List.mem_cons_of_mem b h))]
      rw [dropCR_cons b (c :: tok2) (by simp)]
      rfl

lemma linesGo_ne_nil : ∀ (s acc : List Nat), acc ≠ [] ∨ s ≠ [] →
    linesGo acc s ≠ [] := by
  intro s
  induction s with
  | nil =>
    intro acc h
    rcases h with h | h
    · simp only [linesGo]
      rw [if_neg (by simpa using h)]
      simp
    · exact absurd rfl h
  | cons b rest ih =>
    intro acc _
    simp only [linesGo]
    split_ifs
    · simp
    · exact ih (acc ++ [b]) (Or.inl (by simp))

lemma split_first10 : ∀ (t : List Nat), 10 ∈ t →
    ∃ tok tl, t = tok ++ 10 :: tl ∧ 10 ∉ tok := by
  intro t
  induction t with
  | nil => simp
  | cons b rest ih =>
    intro hm
    by_cases hb : b = 10
    · exact ⟨[], rest, by rw [hb]; rfl, by simp⟩
    · have hr : 10 ∈ rest := by
        rcases List.mem_cons.mp hm with h | h
        · exact absurd h.symm hb
        · exact h
      obtain ⟨tok, tl, he, hn⟩ := ih hr
      refine ⟨b :: tok, tl, by rw [List.cons_append, ← he], ?_⟩
      intro h
      rcases List.mem_cons.mp h with h | h
      · exact hb h.symm
      · exact hn h

/-- Claim C7 amended: for text ending in neither `\n` nor `\r`, joining
the line sequence with `\n` reproduces the text with the `\r` of each
`\r\n` terminator removed (and nothing else changed). -/
theorem lines_reconstruction : ∀ (t : List Nat),
    t.getLast? ≠ some 10 → t.getLast? ≠ some 13 →
    strsJoin (LinesF t) [10] = removeCR t := by
  have H : ∀ (n : Nat) (t : List Nat), t.length ≤ n →
      t.getLast? ≠ some 10 → t.getLast? ≠ some 13 →
      strsJoin (LinesF t) [10] = removeCR t := by
    intro n
    induction n with
    | zero =>
      intro t ht _ _
      have : t = [] := List.length_eq_zero.mp (Nat.le_zero.mp ht)
      subst this
      rfl
    | succ n ih =>
      intro t ht h10 h13
      cases htn : t with
      | nil => rfl
      | cons b rest =>
        rw [← htn]
        by_cases hm : 10 ∈ t
        · obtain ⟨tok, tl, he, hn⟩ := split_first10 t hm
          have hlf : LinesF t = dropCR tok :: LinesF tl := by
            rw [he]
            unfold LinesF
            rw [linesGo_split tl tok [] hn, List.nil_append]
          cases htl : tl with
          | nil =>
            exfalso
            apply h10
            rw [he, htl, List.getLast?_concat]
          | cons x tl2 =>
            have hlast : tl.getLast? = t.getLast? := by
              rw [he, List.getLast?_append_of_ne_nil tok (by rw [htl]; simp)]
              rw [htl, List.getLast?_cons_cons, ← htl]
            have hrec : strsJoin (LinesF tl) [10] = removeCR tl := by
              apply ih tl _ (by rw [hlast]; exact h10)
                (by rw [hlast]; exact h13)
              have := congrArg List.length he
              simp only [List.length_append, List.length_cons] at this
              omega
            rw [hlf, strsJoin_cons _ _ _
              (by apply linesGo_ne_nil; right; rw [htl]; simp)]
            rw [List.append_assoc, List.singleton_append, hrec]
            rw [he, removeCR_split tok tl hn]
        · unfold LinesF
          rw [linesGo_nosplit t [] hm, List.nil_append]
          rw [if_neg (by rw [htn]; simp)]
          rw [show strsJoin [dropCR t] [10] = dropCR t from rfl]
          rw [dropCR_of_last_ne t h13, removeCR_no10 t hm]
  intro t
  exact H t.length t le_rfl

/-- Witness for the amended claim C7 at "a\r\nb\nc". -/
theorem lines_reconstruction_w :
    strsJoin (LinesF [97, 13, 10, 98, 10, 99]) [10] =
      removeCR [97, 13, 10, 98, 10, 99] :=
  lines_reconstruction [97, 13, 10, 98, 10, 99] (by decide) (by decide)

lemma crlf_cons10 (tl : List Nat) : crlfOnly (10 :: tl) = crlfOnly tl := by
  cases tl with
  | nil => rfl
  | cons y tl2 => simp [crlfOnly]

lemma crlf_cons_ne13 (b : Nat) (tl : List Nat) (hb : b ≠ 13) :
    crlfOnly (b :: tl) = crlfOnly tl := by
  cases tl with
  | nil => simp [crlfOnly, hb]
  | cons y tl2 => simp [crlfOnly, hb]

lemma crlf_no10_no13 : ∀ (t : List Nat), crlfOnly t = true → 10 ∉ t →
    13 ∉ t := by
  intro t
  induction t with
  | nil => intro _ _; simp
  | cons b rest ih =>
    intro hc hm
    by_cases hb : b = 13
    · subst hb
      exfalso
      cases rest with
      | nil => simp [crlfOnly] at hc
      | cons c rest2 =>
        simp [crlfOnly] at hc
        exact hm (by simp [hc.1])
    · rw [crlf_cons_ne13 b rest hb] at hc
      intro h
      rcases List.mem_cons.mp h with h | h
      · exact hb h.symm
      · exact ih hc (fun hx => hm (List.mem_cons_of_mem b hx)) h

lemma crlf_chunk : ∀ (tok tl : List Nat), crlfOnly (tok ++ 10 :: tl) = true →
    10 ∉ tok → 13 ∉ dropCR tok ∧ crlfOnly tl = true := by
  intro tok
  induction tok with
  | nil =>
    intro tl hc _
    rw [List.nil_append, crlf_cons10] at hc
    exact ⟨by simp [dropCR], hc⟩
  | cons b tok2 ih =>
    intro tl hc hm
    have hb10 : b ≠ 10 := fun h => hm (by simp [h])
    by_cases hb : b = 13
    · subst hb
      cases tok2 with
      | nil =>
        rw [List.singleton_append] at hc
        simp [crlfOnly] at hc
        rw [crlf_cons10] at hc
        refine ⟨?_, hc⟩
        have : dropCR [13] = [] := by decide
        rw [this]
        simp
      | cons c tok3 =>
        exfalso
        have hc10 : c ≠ 10 := fun h => hm (by simp [h])
        rw [List.cons_append, List.cons_append] at hc
        simp [crlfOnly] at hc
        exact hc10 hc.1
    · rw [List.cons_append, crlf_cons_ne13 b _ hb] at hc
      obtain ⟨h1, h2⟩ := ih tl hc (fun h => hm (List.mem_cons_of_mem b h))
      refine ⟨?_, h2⟩
      cases tok2 with
      | nil =>
        intro h
        have : dropCR [b] = [b] := by
          unfold dropCR
          rw [if_neg (by simp [hb])]
        rw [this] at h
        exact hb (List.mem_singleton.mp h).symm
      | cons c tok3 =>
        rw [dropCR_cons b (c :: tok3) (by simp)]
        intro h
        rcases List.mem_cons.mp h with h | h
        · exact hb h.symm
        · exact h1 h

lemma crlf_lines : ∀ (t : List Nat), crlfOnly t = true →
    ∀ l ∈ LinesF t, 13 ∉ l := by
  have H : ∀ (n : Nat) (t : List Nat), t.length ≤ n → crlfOnly t = true →
      ∀ l ∈ LinesF t, 13 ∉ l := by
    intro n
    induction n with
    | zero =>
      intro t ht _ l hl
      have : t = [] := List.length_eq_zero.mp (Nat.le_zero.mp ht)
      subst this
      simp [LinesF, linesGo] at hl
    | succ n ih =>
      intro t ht hc l hl
      by_cases hm : 10 ∈ t
      · obtain ⟨tok, tl, he, hn⟩ := split_first10 t hm
        rw [he] at hc
        obtain ⟨h1, h2⟩ := crlf_chunk tok tl hc hn
        rw [he] at hl
        unfold LinesF at hl
        rw [linesGo_split tl tok [] hn, List.nil_append] at hl
        rcases List.mem_cons.mp hl with rfl | hl
        · exact h1
        · refine ih tl ?_ h2 l hl
          have := congrArg List.length he
          simp only [List.length_append, List.length_cons] at this
          omega
      · cases htn : t with
        | nil => subst htn; simp [LinesF, linesGo] at hl
        | cons b rest =>
          unfold LinesF at hl
          rw [linesGo_nosplit t [] hm, List.nil_append,
            if_neg (by rw [htn]; simp)] at hl
          rcases List.mem_singleton.mp hl with rfl
          rw [dropCR_of_no13 t (crlf_no10_no13 t hc hm)]
          exact crlf_no10_no13 t hc hm
  intro t
  exact H t.length t le_rfl

/-- Claim C10 amended: when every carriage return of the input sits
directly before a newline (so `\r` appears only inside `\r\n`
terminators) and the prefix has no carriage return, the output of
`Prefixed` contains no `\r`: splitting strips the `\r` of each `\r\n`
and the lines are rejoined with `\n` alone.  An input `\r` not followed
by `\n` survives instead (see the counterexample). -/
theorem prefixed_no_carriage (inn pre : List Nat)
    (hin : crlfOnly inn = true) (hpre : 13 ∉ pre) :
    13 ∉ Prefixed inn pre := by
  unfold Prefixed mapsPre
  apply strsJoin_not_mem
  · intro l hl
    rcases List.mem_map.mp hl with ⟨l0, hl0, rfl⟩
    intro h
    rcases List.mem_append.mp h with h | h
    · exact hpre h
    · exact crlf_lines inn hin l0 hl0 h
  · simp

/-- Witness for the amended claim C10 at input "a\r\nb" and prefix
"P". -/
theorem prefixed_no_carriage_w : 13 ∉ Prefixed [97, 13, 10, 98] [80] :=
  prefixed_no_carriage [97, 13, 10, 98] [80] (by decide) (by decide)

lemma wordOK_no10 (w : List Nat)
    (h : ∀ b ∈ w, b < 0x80 → isSpaceRune b = false) : 10 ∉ w := by
  intro hm
  have := h 10 hm (by omega)
  simp [isSpaceRune] at this

lemma wordOK_no13 (w : List Nat)
    (h : ∀ b ∈ w, b < 0x80 → isSpaceRune b = false) : 13 ∉ w := by
  intro hm
  have := h 13 hm (by omega)
  simp [isSpaceRune] at this

lemma LinesF_single (s : List Nat) (hne : s ≠ []) (h10 : 10 ∉ s)
    (h13 : s.getLast? ≠ some 13) : LinesF s = [s] := by
  unfold LinesF
  rw [linesGo_nosplit s [] h10, List.nil_append,
    if_neg (by simpa using hne), dropCR_of_last_ne s h13]

lemma wrappedGo_acc : ∀ (ws : List (List Nat)) (width c : Int)
    (line : List (List Nat)) (acc : List Nat),
    wrappedGo width ws c line acc = acc ++ wrappedGo width ws c line [] := by
  intro ws
  induction ws with
  | nil => intro width c line acc; simp [wrappedGo]
  | cons cur rest ih =>
    intro width c line acc
    simp only [wrappedGo]
    split_ifs
    · rw [ih _ _ _ acc, ih _ _ _ ([] : List Nat)]
    · rw [ih _ _ _ (acc ++ strsJoin line [32] ++ [10]),
        ih _ _ _ ([] ++ strsJoin line [32] ++ [10])]
      simp [List.append_assoc]
    · rw [ih _ _ _ acc, ih _ _ _ ([] : List Nat)]

lemma wrapBound : ∀ (ws allW : List (List Nat)) (width c : Int)
    (line : List (List Nat)),
    (∀ w ∈ ws, w ≠ [] ∧ ∀ b ∈ w, b < 0x80 → isSpaceRune b = false) →
    (∀ w ∈ line, w ≠ [] ∧ ∀ b ∈ w, b < 0x80 → isSpaceRune b = false) →
    (∀ w ∈ ws, w ∈ allW) → (∀ w ∈ line, w ∈ allW) →
    (line ≠ [] → c = ((strsJoin line [32]).length : Int) + 1) →
    (line ≠ [] → ((strsJoin line [32]).length : Int) ≤ width ∨
      ∃ u, line = [u]) →
    ∀ l ∈ LinesF (wrappedGo width ws c line []),
      ((l.length : Int) ≤ width ∨ l ∈ allW) := by
  intro ws
  induction ws with
  | nil =>
    intro allW width c line _ hlineOK _ hlineAll _ h4 l hl
    simp only [wrappedGo, List.nil_append] at hl
    cases line with
    | nil => simp [LinesF, linesGo] at hl
    | cons u line2 =>
      have hu := hlineOK u (by simp)
      have hne : strsJoin (u :: line2) [32] ≠ [] :=
        strsJoin_ne_nil u line2 [32] hu.1
      have h10 : 10 ∉ strsJoin (u :: line2) [32] := by
        apply strsJoin_not_mem
        · intro w hw; exact wordOK_no10 w (hlineOK w hw).2
        · simp
      have h13 : 13 ∉ strsJoin (u :: line2) [32] := by
        apply strsJoin_not_mem
        · intro w hw; exact wordOK_no13 w (hlineOK w hw).2
        · simp
      rw [LinesF_single _ hne h10
        (fun hx => h13 (getLast?_mem_self hx))] at hl
      rcases List.mem_singleton.mp hl with rfl
      rcases h4 (by simp) with h | ⟨v, hv⟩
      · exact Or.inl h
      · right
        rcases hv with hv
        injection hv with hv1 hv2
        subst hv1
        subst hv2
        exact hlineAll u (by simp)
  | cons cur rest ih =>
    intro allW width c line hwsOK hlineOK hwsAll hlineAll h3 h4 l hl
    have hcurOK := hwsOK cur (by simp)
    have hrestOK : ∀ w ∈ rest, w ≠ [] ∧ ∀ b ∈ w, b < 0x80 →
        isSpaceRune b = false := fun w hw => hwsOK w (List.mem_cons_of_mem _ hw)
    have hrestAll : ∀ w ∈ rest, w ∈ allW :=
      fun w hw => hwsAll w (List.mem_cons_of_mem _ hw)
    simp only [wrappedGo] at hl
    split_ifs at hl with hempty hover
    · have hlineNil : line = [] := by simpa using hempty
      refine ih allW width _ [cur] hrestOK ?_ hrestAll ?_ ?_ ?_ l hl
      · intro w hw
        rcases List.mem_singleton.mp hw with rfl
        exact hcurOK
      · intro w hw
        rcases List.mem_singleton.mp hw with rfl
        exact hwsAll _ (List.mem_cons_self _ _)
      · intro _
        rfl
      · intro _
        exact Or.inr ⟨cur, rfl⟩
    · have hlineNe : line ≠ [] := by simpa using hempty
      rw [wrappedGo_acc, List.nil_append, List.append_assoc,
        List.singleton_append] at hl
      have h10 : 10 ∉ strsJoin line [32] := by
        apply strsJoin_not_mem
        · intro w hw; exact wordOK_no10 w (hlineOK w hw).2
        · simp
      have h13 : 13 ∉ strsJoin line [32] := by
        apply strsJoin_not_mem
        · intro w hw; exact wordOK_no13 w (hlineOK w hw).2
        · simp
      unfold LinesF at hl
      rw [linesGo_split _ _ [] h10, List.nil_append,
        dropCR_of_no13 _ h13] at hl
      rcases List.mem_cons.mp hl with rfl | hl
      · rcases h4 hlineNe with h | ⟨v, hv⟩
        · exact Or.inl h
        · right
          subst hv
          rw [show strsJoin [v] [32] = v from rfl]
          exact hlineAll v (by simp)
      · refine ih allW width _ [cur] hrestOK ?_ hrestAll ?_ ?_ ?_ l hl
        · intro w hw
          rcases List.mem_singleton.mp hw with rfl
          exact hcurOK
        · intro w hw
          rcases List.mem_singleton.mp hw with rfl
          exact hwsAll _ (List.mem_cons_self _ _)
        · intro _
          rfl
        · intro _
          exact Or.inr ⟨cur, rfl⟩
    · have hlineNe : line ≠ [] := by simpa using hempty
      refine ih allW width _ (line ++ [cur]) hrestOK ?_ hrestAll ?_ ?_ ?_ l hl
      · intro w hw
        rcases List.mem_append.mp hw with hw | hw
        · exact hlineOK w hw
        · rcases List.mem_singleton.mp hw with rfl
          exact hcurOK
      · intro w hw
        rcases List.mem_append.mp hw with hw | hw
        · exact hlineAll w hw
        · rcases List.mem_singleton.mp hw with rfl
          exact hwsAll _ (List.mem_cons_self _ _)
      · intro _
        rw [strsJoin_append_last _ _ _ hlineNe]
        have hc := h3 hlineNe
        simp only [List.length_append, List.length_cons, List.length_nil,
          List.length_singleton]
        push_cast
        omega
      · intro _
        left
        rw [strsJoin_append_last _ _ _ hlineNe]
        have hc := h3 hlineNe
        simp only [List.length_append, List.length_cons, List.length_nil,
          List.length_singleton]
        push_cast
        push_cast at hc
        omega

lemma runesB_length_le : ∀ (s : List Nat), (runesB s).length ≤ s.length := by
  apply byteStr_induction
  · simp [runesB, runesGo]
  · intro b0 rest ih
    rw [runesB_cons]
    have := decode1_rest_le b0 rest
    simp only [List.length_cons]
    omega

lemma displayWidth_le (s : List Nat) : displayWidth s ≤ s.length :=
  le_trans (List.length_filter_le _ _) (runesB_length_le s)

/-- Claim C1: for width at least 1, every line of the wrapped text has
display width at most the width, except that a line may be a single
whole input word (which then occupies the line alone, never split or
hyphenated). -/
theorem wrapped_width_bound (text : List Nat) (width : Int)
    (hw : 1 ≤ width) : ∀ l ∈ LinesF (Wrapped text width).1,
    ((displayWidth l : Int) ≤ width ∨ l ∈ fieldsF text) := by
  intro l hl
  unfold Wrapped at hl
  rw [if_neg (by omega)] at hl
  have hb := wrapBound (fieldsF text) (fieldsF text) width 0 []
    (fields_ok text) (by simp) (fun w h => h) (by simp)
    (by intro h; exact absurd rfl h) (by intro h; exact absurd rfl h) l hl
  rcases hb with h | h
  · left
    have hd := displayWidth_le l
    have : (displayWidth l : Int) ≤ (l.length : Int) := by exact_mod_cast hd
    omega
  · exact Or.inr h

/-- Witness for claim C1 at text "some thing" and width 3: the line
"some" exceeds the width, and is indeed a whole input word standing
alone. -/
theorem wrapped_width_bound_w :
    ((displayWidth [115, 111, 109, 101] : Int) ≤ 3 ∨
      [115, 111, 109, 101] ∈
        fieldsF [115, 111, 109, 101, 32, 116, 104, 105, 110, 103]) :=
  wrapped_width_bound [115, 111, 109, 101, 32, 116, 104, 105, 110, 103] 3
    (by decide) [115, 111, 109, 101] (by decide)

lemma getLast?_drop_of_lt {α : Type} (l : List α) (k : Nat)
    (h : k < l.length) : (l.drop k).getLast? = l.getLast? := by
  have hne : l.drop k ≠ [] := by
    intro hnil
    have := congrArg List.length hnil
    simp only [List.length_drop, List.length_nil] at this
    omega
  conv_rhs => rw [← List.take_append_drop k l]
  rw [List.getLast?_append_of_ne_nil _ hne]

lemma dedLine_zero : dedLine 0 = id := by
  funext l
  unfold dedLine
  split_ifs with h
  · exact List.drop_zero l
  · rfl

lemma dedLine_ne_nil (k : Nat) (l : List Nat) (h : l ≠ []) :
    dedLine k l ≠ [] := by
  unfold dedLine
  split_ifs with hk
  · intro hnil
    have := congrArg List.length hnil
    simp only [List.length_drop, List.length_nil] at this
    omega
  · exact h

/-- Claim C9 amended: `Dedented` is idempotent on its own output for
every input that has a non-blank line whose first non-blank line also
contains a rune that is not `unicode.IsSpace` whitespace, no line of
which ends in a carriage return, and whose final line is nonempty.
(Each hypothesis is needed: "foo\n\n" in the counterexample violates
only the last one and already breaks idempotence.) -/
theorem dedented_idempotent (x y : List Nat) (s : Nat) (lS : List Nat)
    (hs : skipIdx (LinesF x) = some s)
    (hlS : (LinesF x)[s]? = some lS)
    (hnw : hasNonWs (runesB lS) = true)
    (h13 : ∀ l ∈ LinesF x, l.getLast? ≠ some 13)
    (hlast : (LinesF x).getLast? ≠ some [])
    (hy : Dedented x = some y) :
    Dedented y = some y := by
  have hyv : y = strsJoin (((LinesF x).drop s).map
      (dedLine (Indentation lS))) [10] := by
    rw [Dedented_eq x s lS hs hlS] at hy
    injection hy with hy
    exact hy.symm
  obtain ⟨hslt, hsel⟩ : ∃ hn : s < (LinesF x).length, (LinesF x)[s] = lS := by
    rw [List.getElem?_eq_some] at hlS
    exact hlS
  have hdropc : (LinesF x).drop s = lS :: (LinesF x).drop (s + 1) := by
    rw [List.drop_eq_getElem_cons hslt, hsel]
  set K := Indentation lS with hK
  have hKlt : K < lS.length := (indent_hasNonWs lS hnw).1
  obtain ⟨hind0, hdne, hdnb⟩ := indent_drop_props lS hnw
  have ht0 : dedLine K lS = lS.drop K := by
    unfold dedLine
    rw [if_pos hKlt]
  have htls : ((LinesF x).drop s).map (dedLine K) =
      lS.drop K :: ((LinesF x).drop (s + 1)).map (dedLine K) := by
    rw [hdropc, List.map_cons, ht0]
  have hmemlines : ∀ l ∈ ((LinesF x).drop s).map (dedLine K),
      ∃ l0 ∈ LinesF x, l = dedLine K l0 := by
    intro l hl
    rcases List.mem_map.mp hl with ⟨l0, hl0, rfl⟩
    exact ⟨l0, List.drop_subset s (LinesF x) hl0, rfl⟩
  have hrt : LinesF y = ((LinesF x).drop s).map (dedLine K) := by
    rw [hyv]
    apply LinesF_roundtrip
    · rw [htls]; simp
    · intro l hl
      obtain ⟨l0, hl0, rfl⟩ := hmemlines l hl
      unfold dedLine
      split_ifs
      · intro hmem
        exact LinesF_no10 x l0 hl0 (List.drop_subset _ _ hmem)
      · exact LinesF_no10 x l0 hl0
    · intro l hl
      obtain ⟨l0, hl0, rfl⟩ := hmemlines l hl
      unfold dedLine
      split_ifs with hkl
      · rw [getLast?_drop_of_lt l0 K hkl]
        exact h13 l0 hl0
      · exact h13 l0 hl0
    · rw [List.getLast?_map]
      rw [getLast?_drop_of_lt _ s hslt]
      intro hsome
      rcases hg : (LinesF x).getLast? with _ | lz
      · rw [hg] at hsome; simp at hsome
      · rw [hg] at hsome
        simp only [Option.map_some'] at hsome
        injection hsome with hsome
        have hlzne : lz ≠ [] := by
          intro hnil
          rw [hnil] at hg
          exact hlast hg
        exact dedLine_ne_nil K lz hlzne hsome
  have hskip : skipIdx (LinesF y) = some 0 := by
    rw [hrt, htls]
    simp only [skipIdx]
    rw [if_neg]
    simp only [Bool.or_eq_true, decide_eq_true_eq, not_or]
    constructor
    · intro hlen
      exact hdne (List.length_eq_zero.mp hlen)
    · simp [hdnb]
  have hsel0 : (LinesF y)[0]? = some (lS.drop K) := by
    rw [hrt, htls]
    simp
  rw [Dedented_eq y 0 (lS.drop K) hskip hsel0]
  rw [← hK] at hind0
  rw [hind0, dedLine_zero, List.drop_zero, List.map_id, hrt, ← hyv]

/-- Witness for the amended claim C9 at input "  foo\n  bar". -/
theorem dedented_idempotent_w :
    Dedented [102, 111, 111, 10, 98, 97, 114] =
      some [102, 111, 111, 10, 98, 97, 114] :=
  dedented_idempotent [32, 32, 102, 111, 111, 10, 32, 32, 98, 97, 114]
    [102, 111, 111, 10, 98, 97, 114] 0 [32, 32, 102, 111, 111]
    (by decide) (by decide) (by decide) (by decide) (by decide) (by decide)
